import Mathlib

/-!
Verification of the OMS repository: p-adic overconvergent modular symbols
and automorphic forms.  The definitions below are shallow embeddings of the
functions named in the claims, translated from
src/sage/modular/pollack_stevens/modsym.py and
src/sage/modular/btquotients/pautomorphicform.py.  Operations implemented
outside those two files (distribution arithmetic, matrix actions, Hecke
operators on whole symbols, the tree combinatorics) are abstracted as
parameters of the embedded functions, so each theorem quantifies over them.
-/

namespace OMS

/-- Sage integer valuation z.valuation(p): the number of times the prime p
divides the integer z, and plus infinity at z = 0.  The auxiliary function
uses structural fuel; fuel equal to the integer itself is always enough
because each step divides by p, which is at least 2. -/
def vpAux (p : ℕ) : ℕ → ℕ → ℕ
  | 0, _ => 0
  | fuel + 1, n => if 2 ≤ p ∧ n ≠ 0 ∧ n % p = 0 then vpAux p fuel (n / p) + 1 else 0

/-- p-adic valuation of an integer, as used by _find_aq in modsym.py. -/
def vp (p : ℕ) (z : ℤ) : WithTop ℕ :=
  if z = 0 then ⊤ else ((vpAux p z.natAbs z.natAbs : ℕ) : WithTop ℕ)

/-- Sage Integer.exact_log(b): the floor of the base b logarithm, via
repeated division.  Sage raises on nonpositive input; this model returns 0
there, which only widens the domain. -/
def exactLogAux (b : ℕ) : ℕ → ℕ → ℕ
  | 0, _ => 0
  | fuel + 1, n => if b ≤ n ∧ 2 ≤ b then exactLogAux b fuel (n / b) + 1 else 0

/-- Floor logarithm in base b. -/
def exact_log (b n : ℕ) : ℕ := exactLogAux b n n

/-- The eplog fixpoint loop of _find_extraprec (modsym.py:1320-1324):
starting from eplog = exact_log p (newM - 1), repeat
eplog := exact_log p (newM + eplog) while that is strictly larger. -/
def eplogLoop (p newM : ℕ) : ℕ → ℕ → ℕ
  | 0, e => e
  | fuel + 1, e =>
    if e < exact_log p (newM + e) then eplogLoop p newM fuel (exact_log p (newM + e)) else e

/-- The precision added for denominators appearing while solving the
difference equation, as computed by _find_extraprec. -/
def eplog (p newM : ℕ) : ℕ := eplogLoop p newM (newM + 2) (exact_log p (newM - 1))

/-- PSModularSymbolElement_symk._find_extraprec (modsym.py:1316-1330).
Inputs: the prime p, the target precision M, the Eisenstein loss returned
by _find_aq, and s, the p-adic valuation of the symbol itself.  The result
is newM = M + eisenloss, plus the difference equation denominator loss,
plus minus s more when the symbol has denominators (s negative). -/
def find_extraprec (p M eisenloss : ℕ) (s : ℤ) : ℕ :=
  let newM := M + eisenloss
  let newM := newM + eplog p newM
  if s < 0 then newM + (-s).toNat else newM

/-- C6 counterexample input: p = 11, M = 10, eisenloss = 1 and a symbol of
valuation -1.  The code returns one more than M + eisenloss + eplog. -/
theorem find_extraprec_claim_counterexample :
    ¬ (find_extraprec 11 10 1 (-1) = 10 + 1 + eplog 11 (10 + 1)) := by decide

/-- C6 amended: the working precision equals M + eisenloss + eplog, plus
additionally the negative part of the valuation of the symbol itself. -/
theorem find_extraprec_formula (p M eisenloss : ℕ) (s : ℤ) :
    find_extraprec p M eisenloss s =
      M + eisenloss + eplog p (M + eisenloss) + (if s < 0 then (-s).toNat else 0) := by
  unfold find_extraprec
  by_cases h : s < 0 <;> simp [h]

/-- Integration method argument of pAutomorphicFormElement.coleman. -/
inductive ColemanMethod
  | moments
  | riemann_sum
  | other
deriving DecidableEq

/-- Observable outcome of pAutomorphicFormElement.coleman with respect to
the NotImplementedError guard. -/
inductive ColemanOutcome
  | notImplementedError
  | integralValue
  | falseReturned
deriving DecidableEq

/-- Control skeleton of pAutomorphicFormElement.coleman
(pautomorphicform.py:1958-2077): the function raises NotImplementedError
exactly when mult is requested together with delta at least 0 (the default
delta is the sentinel -1, meaning no twist); otherwise the riemann_sum and
moments branches carry out the integration and any other method string
prints a message and returns False. -/
def coleman (mult : Bool) (delta : ℤ) (method : ColemanMethod) : ColemanOutcome :=
  if mult = true ∧ 0 ≤ delta then .notImplementedError
  else
    match method with
    | .moments => .integralValue
    | .riemann_sum => .integralValue
    | .other => .falseReturned

/-- C8 counterexample: with mult = True and the zero twist delta = 0 the
code raises NotImplementedError, although the claim says the error occurs
only for a nonzero twist and that integration proceeds in all other cases. -/
theorem coleman_claim_counterexample :
    coleman true 0 .moments = .notImplementedError ∧ ¬ ((0 : ℤ) ≠ 0) := by decide

/-- C8 amended: coleman raises NotImplementedError exactly when mult = True
and delta is at least 0, that is, when any twist (including the zero twist)
is requested together with the multiplicative variant; negative delta is
the no-twist sentinel and proceeds. -/
theorem coleman_raises_iff (mult : Bool) (delta : ℤ) (method : ColemanMethod) :
    coleman mult delta method = .notImplementedError ↔ mult = true ∧ 0 ≤ delta := by
  unfold coleman
  by_cases h : mult = true ∧ 0 ≤ delta
  · simp [h]
  · simp only [h, if_false]
    cases method <;> simp [h]

/-- C8 witness: the amended equivalence evaluated at a concrete input. -/
theorem coleman_raises_iff_witness :
    coleman true 2 .riemann_sum = .notImplementedError :=
  (coleman_raises_iff true 2 .riemann_sum).mpr (by decide)

/-- HarmonicCocycleElement.__nonzero__ (pautomorphicform.py:284-305): the
code builds a list of zeros and returns any(F[e] == tmp), so under the most
generous reading (the comparison with the zero list succeeding) it tests
whether SOME stored value is zero. -/
def hc_nonzero {D : Type} [DecidableEq D] (zeroD : D) (F : List D) : Bool :=
  F.any (fun x => decide (x = zeroD))

/-- Sage derives is_zero from the truth value given by __nonzero__. -/
def hc_is_zero {D : Type} [DecidableEq D] (zeroD : D) (F : List D) : Bool :=
  ! hc_nonzero zeroD F

/-- HarmonicCocycleElement.valuation (pautomorphicform.py:306-332): plus
infinity when is_zero() holds, otherwise the minimum of the valuations of
the stored values on the edge representatives. -/
def hc_valuation {D : Type} [DecidableEq D] (zeroD : D) (valD : D → WithTop ℤ)
    (F : List D) : WithTop ℤ :=
  if hc_is_zero zeroD F = true then ⊤ else (F.map valD).foldr min ⊤

/-- pAutomorphicFormElement.__nonzero__ (pautomorphicform.py:1621-1641):
true when some stored value is nonzero. -/
def pa_nonzero {D : Type} [DecidableEq D] (zeroD : D) (F : List D) : Bool :=
  F.any (fun x => decide (¬ x = zeroD))

/-- pAutomorphicFormElement.valuation (pautomorphicform.py:1598-1619): plus
infinity when the form equals zero, otherwise the minimum of the valuations
of the values on the generator representatives. -/
def pa_valuation {D : Type} [DecidableEq D] (zeroD : D) (valD : D → WithTop ℤ)
    (F : List D) : WithTop ℤ :=
  if pa_nonzero zeroD F = false then ⊤ else (F.map valD).foldr min ⊤

/-- C9 bug evaluation: a harmonic cocycle whose single edge value is the
nonzero element 1 with valuation 0.  The claim (and the docstring of the
method itself) require valuation 0, but the harmonic cocycle code returns
plus infinity because its inverted __nonzero__ test finds no zero value and
therefore reports the element as zero.  The automorphic form version of the
same method returns the claimed value 0 on the same data. -/
theorem hc_valuation_bug :
    hc_valuation (0 : ℤ) (fun d => if d = 0 then ⊤ else 0) [1] = ⊤ ∧
    pa_valuation (0 : ℤ) (fun d => if d = 0 then ⊤ else 0) [1] = 0 ∧
    (⊤ : WithTop ℤ) ≠ 0 := by decide

/-- A moment sequence of a distribution: moment i of the value.  The
coefficient modules of the overconvergent spaces store at least n + 1
moments where n is the weight; modelling the sequence as a function keeps
the in-place moment assignments of the Python code total. -/
abbrev Dist (R : Type) := ℕ → R

/-- One entry u of the Up double coset data for one output edge
(pautomorphicform.py:2410-2413): the correction matrix u.t already
evaluated at working precision, the integer u.power, and the source edge
index u.label. -/
structure UpCorr (A : Type) where
  power : ℤ
  t : A
  label : ℕ

/-- Inner accumulation of pAutomorphicForms._apply_Up_operator for one
output index jj (pautomorphicform.py:2407-2420): starting from the zero
distribution, for every piece d of the double coset data add the value at
u.label acted on the right by p to the power minus u.power times
u.t times the acter gg; then multiply by the factor, and finally overwrite
moments 0 through n with the corresponding moments of the input value at
jj.  The matrix action act, matrix product mul and scalar matrix scaling
pscale live outside the two source files and are parameters. -/
def applyUpValue {R A : Type} [CommRing R]
    (act : Dist R → A → Dist R) (mul : A → A → A) (pscale : ℤ → A → A)
    (heckeData : List (A × (ℕ → UpCorr A))) (fval : ℕ → Dist R)
    (factor : R) (n : ℕ) (j : ℕ) : Dist R :=
  let tmp : Dist R :=
    heckeData.foldl
      (fun tmp d => fun i =>
        tmp i + act (fval (d.2 j).label) (pscale (-(d.2 j).power) (mul (d.2 j).t d.1)) i)
      (fun _ => 0)
  fun i => if i ≤ n then fval j i else factor * tmp i

/-- pAutomorphicForms._apply_Up_operator (pautomorphicform.py:2389-2426).
pHalfWeight stands for p to the power weight over two; the factor is that
value when scale is False and 1 otherwise.  The fix_lowdeg_terms argument
is accepted but never read by the source: the low degree moments are
overwritten unconditionally, after the factor has been applied. -/
def apply_Up_operator {R A : Type} [CommRing R]
    (act : Dist R → A → Dist R) (mul : A → A → A) (pscale : ℤ → A → A)
    (pHalfWeight : R) (n : ℕ)
    (heckeData : List (A × (ℕ → UpCorr A))) (fval : ℕ → Dist R)
    (scale : Bool) (fix_lowdeg_terms : Bool) : ℕ → Dist R :=
  let factor : R := if scale = false then pHalfWeight else 1
  fun j => applyUpValue act mul pscale heckeData fval factor n j

/-- C1: for every output index j and every moment index i up to the weight
n, the form returned by _apply_Up_operator has moment i at index j equal to
moment i of the input value at j, whatever the double coset data, the
action, the scaling and the flags are. -/
theorem apply_Up_fixes_low_moments {R A : Type} [CommRing R]
    (act : Dist R → A → Dist R) (mul : A → A → A) (pscale : ℤ → A → A)
    (pHalfWeight : R) (n : ℕ)
    (heckeData : List (A × (ℕ → UpCorr A))) (fval : ℕ → Dist R)
    (scale fix_lowdeg_terms : Bool) (j i : ℕ) (h : i ≤ n) :
    apply_Up_operator act mul pscale pHalfWeight n heckeData fval scale fix_lowdeg_terms j i =
      fval j i := by
  simp [apply_Up_operator, applyUpValue, h]

/-- C1 witness: the theorem evaluated on concrete data over the integers
with one nonempty double coset piece. -/
theorem apply_Up_fixes_low_moments_witness :
    @apply_Up_operator ℤ ℤ _
      (fun d a => fun i => d i * a) (fun a b => a * b) (fun _ a => a)
      3 1 [(2, fun _ => ⟨1, 5, 0⟩)] (fun j i => (j : ℤ) + i + 7) false true 0 1 = 8 :=
  @apply_Up_fixes_low_moments ℤ ℤ _
    (fun d a => fun i => d i * a) (fun a b => a * b) (fun _ a => a)
    3 1 [(2, fun _ => ⟨1, 5, 0⟩)] (fun j i => (j : ℤ) + i + 7) false true 0 1 (by decide)

/-- C10: the fix_lowdeg_terms argument of _apply_Up_operator has no effect
on the result, for every value of the scale flag and all other inputs. -/
theorem apply_Up_fix_lowdeg_terms_irrelevant {R A : Type} [CommRing R]
    (act : Dist R → A → Dist R) (mul : A → A → A) (pscale : ℤ → A → A)
    (pHalfWeight : R) (n : ℕ)
    (heckeData : List (A × (ℕ → UpCorr A))) (fval : ℕ → Dist R) (scale : Bool) :
    apply_Up_operator act mul pscale pHalfWeight n heckeData fval scale false =
      apply_Up_operator act mul pscale pHalfWeight n heckeData fval scale true := rfl

/-- Loop of pAutomorphicFormElement.improve (pautomorphicform.py:1685-1702)
with the p-adic machinery abstracted: step is one application of
_apply_Up_operator with scale True, dval a b is the valuation of the
difference a - b, and init is the valuation of the initial lift.  The state
carries the current value, its Up image h2, old_val (initially minus
infinity), current_val (initially 0) and the pass counter ii.  The returned
Boolean records whether the loop stopped on its own; the fuel only bounds
the modelled execution and is not part of the source, which has no
iteration cap.  One pass: old_val := current_val, the value becomes h2, h2
becomes its Up image, current_val becomes dval h2 value minus init, and the
loop breaks at once when current_val is plus infinity. -/
def improveLoop {F : Type} (step : F → F) (dval : F → F → WithTop ℤ) (init : ℤ) :
    ℕ → F → F → WithBot (WithTop ℤ) → WithTop ℤ → ℕ → F × ℕ × Bool
  | 0, _, h2, _, _, ii => (h2, ii, false)
  | fuel + 1, _, h2, oldv, curv, ii =>
    if oldv < (curv : WithBot (WithTop ℤ)) then
      let s1 := h2
      let h21 := step s1
      let cur1 := (dval h21 s1).map (fun v => v - init)
      if cur1 = ⊤ then (h21, ii + 1, true)
      else improveLoop step dval init fuel s1 h21 (curv : WithBot (WithTop ℤ)) cur1 (ii + 1)
    else (h2, ii, true)

/-- pAutomorphicFormElement.improve (pautomorphicform.py:1643-1703): apply
Up once, then run the loop with old_val = minus infinity, current_val = 0
and pass counter 0. -/
def improve {F : Type} (step : F → F) (dval : F → F → WithTop ℤ) (init : ℤ)
    (fuel : ℕ) (f : F) : F × ℕ × Bool :=
  improveLoop step dval init fuel f (step f) ⊥ 0 0

/-- C4 counterexample: a run of the improve loop with working precision 1
and an initial lift of valuation -10 (the difference valuations
dval a b = a - 11 stay below the precision 1 until they jump to plus
infinity, as p-adic valuations in a module of precision cap 1 may).  The
loop performs 12 passes before stopping, far more than twice the target
precision, because the source loop has no iteration cap: its guard only
compares current_val with old_val. -/
theorem improve_no_iteration_cap :
    improve (fun a : ℤ => a + 1)
        (fun a _ => if a ≤ 12 then ((a - 11 : ℤ) : WithTop ℤ) else ⊤)
        (-10) 20 0 = (13, 12, true) ∧ 2 * 1 < 12 := by decide

/-- Halting helper for the improve loop: once old_val holds an integer o
and current_val holds an integer c bounded by prec - init, the loop stops
within prec - init - o more fuel (plus one).  prec is the precision cap of
the coefficient module: every finite difference valuation is at most prec. -/
theorem improveLoop_halts {F : Type} (step : F → F) (dval : F → F → WithTop ℤ)
    (init prec : ℤ)
    (hb : ∀ a b, dval a b ≤ ((prec : ℤ) : WithTop ℤ) ∨ dval a b = ⊤) :
    ∀ fuel (o c : ℤ) (s h2 : F) (ii : ℕ),
      c ≤ prec - init →
      (prec - init - o).toNat + 1 ≤ fuel →
      (improveLoop step dval init fuel s h2
        (((o : WithTop ℤ) : WithBot (WithTop ℤ))) ((c : ℤ) : WithTop ℤ) ii).2.2 = true := by
  intro fuel
  induction fuel with
  | zero => intro o c s h2 ii _ hfuel; omega
  | succ fuel ih =>
    intro o c s h2 ii hc hfuel
    rw [improveLoop]
    by_cases hoc : ((o : WithTop ℤ) : WithBot (WithTop ℤ)) < ((c : ℤ) : WithTop ℤ)
    · simp only [hoc, if_true]
      rcases hb (step h2) h2 with hfin | htop
      · rcases WithTop.le_coe_iff.mp hfin with ⟨d, hd, hdle⟩
        by_cases htop1 : (dval (step h2) h2).map (fun v => v - init) = ⊤
        · simp only [htop1, if_true]
        · simp only [htop1, if_false]
          rw [hd]
          have hmap : (((d : WithTop ℤ)).map (fun v => v - init)) = ((d - init : ℤ) : WithTop ℤ) := rfl
          rw [hmap]
          apply ih
          · omega
          · have hoc2 : o < c := by
              have := WithBot.coe_lt_coe.mp hoc
              exact_mod_cast this
            omega
      · simp only [htop, if_pos]
        have : (⊤ : WithTop ℤ).map (fun v => v - init) = ⊤ := rfl
        simp [this]
    · simp only [hoc, if_false]

/-- C4 amended: the loop guard of improve only compares current_val with
old_val (there is no iteration cap in the source); the loop terminates all
the same, because every pass needs a strictly larger integer current_val,
current_val is bounded above by prec - init whenever finite, and a pass
with current_val plus infinity breaks at once.  With fuel
(prec - init).toNat + 2 the loop always reports that it stopped. -/
theorem improve_terminates {F : Type} (step : F → F) (dval : F → F → WithTop ℤ)
    (init prec : ℤ)
    (hb : ∀ a b, dval a b ≤ ((prec : ℤ) : WithTop ℤ) ∨ dval a b = ⊤) (f : F) :
    (improve step dval init ((prec - init).toNat + 2) f).2.2 = true := by
  unfold improve
  rw [improveLoop]
  have hguard : (⊥ : WithBot (WithTop ℤ)) < ((0 : WithTop ℤ) : WithBot (WithTop ℤ)) :=
    WithBot.bot_lt_coe _
  simp only [hguard, if_true]
  rcases hb (step (step f)) (step f) with hfin | htop
  · rcases WithTop.le_coe_iff.mp hfin with ⟨d, hd, hdle⟩
    by_cases htop1 : (dval (step (step f)) (step f)).map (fun v => v - init) = ⊤
    · simp only [htop1, if_true]
    · simp only [htop1, if_false]
      rw [hd]
      have hmap : (((d : WithTop ℤ)).map (fun v => v - init)) = ((d - init : ℤ) : WithTop ℤ) := rfl
      rw [hmap]
      have h0 : ((0 : WithTop ℤ) : WithBot (WithTop ℤ)) = (((0 : ℤ) : WithTop ℤ) : WithBot (WithTop ℤ)) := by
        norm_cast
      rw [h0]
      apply improveLoop_halts step dval init prec hb
      · omega
      · omega
  · simp only [htop, if_pos]
    have : (⊤ : WithTop ℤ).map (fun v => v - init) = ⊤ := rfl
    simp [this]

/-- C4 witness for the amended statement: a concrete instance where every
difference valuation is 0 and the loop stops after one pass. -/
theorem improve_terminates_witness :
    (improve (fun a : ℤ => a + 1) (fun _ _ => ((0 : ℤ) : WithTop ℤ)) 0
      (((0 : ℤ) - 0).toNat + 2) 0).2.2 = true :=
  improve_terminates (fun a : ℤ => a + 1) (fun _ _ => ((0 : ℤ) : WithTop ℤ)) 0 0
    (fun _ _ => Or.inl (le_refl _)) 0

/-- The operations _lift_to_OMS_eigen needs: the Hecke operators, scalar
multiplication and subtraction on symbols, the naive lift _lift_to_OMS, the
precision reduction, the primes p and q, the weight k, the inverse apinv of
the eigenvalue ap, the rescaling scalar, and the valuation of ap in the new
base ring.  These all live outside the function body and are grouped here
so the embedded function can quantify over them. -/
structure LiftCtx (K Sym : Type) where
  hecke : ℕ → Sym → Sym
  smul : K → Sym → Sym
  sub : Sym → Sym → Sym
  naiveLift : ℕ → Sym
  reducePrec : ℕ → Sym → Sym
  p : ℕ
  q : ℕ
  k : ℕ
  apinv : K
  rescale : K
  valap : ℤ

/-- Errors raised by _lift_to_OMS_eigen (modsym.py:1366-1401). -/
inductive LiftErr
  | nonOrdinary
  | precisionProblem
deriving DecidableEq

/-- The Up fixed point loop of _lift_to_OMS_eigen (modsym.py:1392-1397):
while Phi differs from Psi and attempts is below the cap, Phi becomes Psi,
Psi becomes step Psi, and attempts is counted.  Returns the final Phi and
Psi and the attempt count; fuel cap + 1 always completes the loop because
every pass increments attempts. -/
def upFix {Sym : Type} [DecidableEq Sym] (step : Sym → Sym) (cap : ℕ) :
    ℕ → Sym → Sym → ℕ → Sym × Sym × ℕ
  | 0, Phi, Psi, att => (Phi, Psi, att)
  | fuel + 1, Phi, Psi, att =>
    if Phi ≠ Psi ∧ att < cap then upFix step cap fuel Psi (step Psi) (att + 1)
    else (Phi, Psi, att)

/-- One application of apinv times U_p, as written repeatedly in
_lift_to_OMS_eigen (scalar multiplication by apinv commutes with symbols,
so apinv * Phi.hecke(p) and Phi.hecke(p) * apinv are the same map). -/
def upStep {K Sym : Type} (C : LiftCtx K Sym) (Phi : Sym) : Sym :=
  C.smul C.apinv (C.hecke C.p Phi)

/-- Steps (i) through (iii) of _lift_to_OMS_eigen (modsym.py:1375-1390):
the naive lift to newM moments, one application of apinv times U_p, then
killing the Eisenstein part by (q^(k+1) + 1) * Phi - Phi.hecke(q). -/
def eigenStart {K Sym : Type} [CommRing K] (C : LiftCtx K Sym) (newM : ℕ) : Sym :=
  let Phi1 := upStep C (C.naiveLift newM)
  C.sub (C.smul (((C.q : K)) ^ (C.k + 1) + 1) Phi1) (C.hecke C.q Phi1)

/-- The iteration state of _lift_to_OMS_eigen after the while loop: the
loop starts from Phi = eigenStart and Psi = upStep Phi with attempts = 0
and cap 2 * newM. -/
def eigenLoop {K Sym : Type} [CommRing K] [DecidableEq Sym]
    (C : LiftCtx K Sym) (newM : ℕ) : Sym × Sym × ℕ :=
  upFix (upStep C) (2 * newM) (2 * newM + 1)
    (eigenStart C newM) (upStep C (eigenStart C newM)) 0

/-- PSModularSymbolElement_symk._lift_to_OMS_eigen (modsym.py:1332-1402):
refuse non-ordinary eigenvalues up front, run steps (i) to (iv), raise when
the attempt count reached 2 * newM, otherwise rescale by the inverse of
q^(k+1) + 1 - aq and reduce the precision to M moments. -/
def lift_to_OMS_eigen {K Sym : Type} [CommRing K] [DecidableEq Sym]
    (C : LiftCtx K Sym) (M newM : ℕ) : Except LiftErr Sym :=
  if 0 < C.valap then .error .nonOrdinary
  else
    let r := eigenLoop C newM
    if 2 * newM ≤ r.2.2 then .error .precisionProblem
    else .ok (C.reducePrec M (C.smul C.rescale r.1))

/-- Step (i) of the claimed pipeline: the naive lift to newM moments. -/
def specNaiveLift {K Sym : Type} (C : LiftCtx K Sym) (newM : ℕ) : Sym :=
  C.naiveLift newM

/-- Step (ii) and the iterated map of step (iv): apinv times U_p. -/
def specUpOnce {K Sym : Type} (C : LiftCtx K Sym) (Phi : Sym) : Sym :=
  C.smul C.apinv (C.hecke C.p Phi)

/-- Step (iii): kill the Eisenstein part via (q^(k+1) + 1) Phi - T_q Phi. -/
def specKillEisenstein {K Sym : Type} [CommRing K] (C : LiftCtx K Sym) (Phi : Sym) : Sym :=
  C.sub (C.smul (((C.q : K)) ^ (C.k + 1) + 1) Phi) (C.hecke C.q Phi)

/-- Step (iv): iterate apinv times U_p to a fixed point, capped at 2 newM
attempts. -/
def specIterate {K Sym : Type} [DecidableEq Sym] (C : LiftCtx K Sym) (newM : ℕ)
    (Phi : Sym) : Sym × Sym × ℕ :=
  upFix (specUpOnce C) (2 * newM) (2 * newM + 1) Phi (specUpOnce C Phi) 0

/-- Step (v): rescale by the inverse of q^(k+1) + 1 - aq. -/
def specRescaleStep {K Sym : Type} (C : LiftCtx K Sym) (Phi : Sym) : Sym :=
  C.smul C.rescale Phi

/-- The pipeline exactly as the claim states it: naive lift, one
application of apinv U_p, Eisenstein kill, iteration to a fixed point,
rescaling, and finally precision reduction to M moments, with the ordinary
check up front and the precision failure after the iteration. -/
def spec_lift_pipeline {K Sym : Type} [CommRing K] [DecidableEq Sym]
    (C : LiftCtx K Sym) (M newM : ℕ) : Except LiftErr Sym :=
  if 0 < C.valap then .error .nonOrdinary
  else
    let r := specIterate C newM (specKillEisenstein C (specUpOnce C (specNaiveLift C newM)))
    if 2 * newM ≤ r.2.2 then .error .precisionProblem
    else .ok (C.reducePrec M (specRescaleStep C r.1))

/-- C2: _lift_to_OMS_eigen performs exactly the claimed steps in the
claimed order: the transliterated source function coincides with the
pipeline composed of the five named steps followed by precision reduction,
for all inputs. -/
theorem lift_to_OMS_eigen_is_pipeline {K Sym : Type} [CommRing K] [DecidableEq Sym]
    (C : LiftCtx K Sym) (M newM : ℕ) :
    lift_to_OMS_eigen C M newM = spec_lift_pipeline C M newM := rfl

/-- C3: the procedure raises the non-ordinary error whenever ap has
positive valuation, before any lifting work is used; and when the fixed
point iteration exits with its attempt counter at the cap 2 * newM while
the two successive iterates still disagree, it raises the precision error
instead of returning a symbol. -/
theorem lift_to_OMS_eigen_errors {K Sym : Type} [CommRing K] [DecidableEq Sym]
    (C : LiftCtx K Sym) (M newM : ℕ) :
    (0 < C.valap → lift_to_OMS_eigen C M newM = .error .nonOrdinary) ∧
    (¬ 0 < C.valap → (eigenLoop C newM).1 ≠ (eigenLoop C newM).2.1 →
      2 * newM ≤ (eigenLoop C newM).2.2 →
      lift_to_OMS_eigen C M newM = .error .precisionProblem) := by
  constructor
  · intro h
    simp [lift_to_OMS_eigen, h]
  · intro h _ hcap
    simp [lift_to_OMS_eigen, h, hcap]

/-- C3 witness: over the integers with hecke adding one, the iteration
never reaches a fixed point, so a run with newM = 1 exhausts its 2 attempts
and raises; and an eigenvalue of positive valuation raises at once. -/
theorem lift_to_OMS_eigen_errors_witness :
    lift_to_OMS_eigen
        (⟨fun _ s => s + 1, fun _ s => s, fun a _ => a, fun _ => 0, fun _ s => s,
          2, 3, 0, 1, 1, 0⟩ : LiftCtx ℤ ℤ) 1 1 = .error .precisionProblem ∧
    lift_to_OMS_eigen
        (⟨fun _ s => s + 1, fun _ s => s, fun a _ => a, fun _ => 0, fun _ s => s,
          2, 3, 0, 1, 1, 1⟩ : LiftCtx ℤ ℤ) 1 1 = .error .nonOrdinary :=
  ⟨(lift_to_OMS_eigen_errors
      (⟨fun _ s => s + 1, fun _ s => s, fun a _ => a, fun _ => 0, fun _ s => s,
        2, 3, 0, 1, 1, 0⟩ : LiftCtx ℤ ℤ) 1 1).2 (by decide) (by decide) (by decide),
   (lift_to_OMS_eigen_errors
      (⟨fun _ s => s + 1, fun _ s => s, fun a _ => a, fun _ => 0, fun _ s => s,
        2, 3, 0, 1, 1, 1⟩ : LiftCtx ℤ ℤ) 1 1).1 (by decide)⟩

/-- Errors raised by PSModularSymbolElement.Tq_eigenvalue
(modsym.py:496-558). -/
inductive TqErr
  | notScalar
  | selfZero
deriving DecidableEq

/-- The generator scan of Tq_eigenvalue (modsym.py:537-545): walk the
generators while the value of self there is zero modulo p^M; raise the not
a scalar multiple error if the Hecke image is nonzero on such a generator,
and raise the self is zero error when the generators run out (the
IndexError branch). -/
def firstNonzeroGen {D : Type} (isZeroD : D → Bool) (selfMap qheckeMap : ℕ → D) :
    List ℕ → Except TqErr ℕ
  | [] => .error .selfZero
  | g :: rest =>
    if isZeroD (selfMap g) then
      if ! isZeroD (qheckeMap g) then .error .notScalar
      else firstNonzeroGen isZeroD selfMap qheckeMap rest
    else .ok g

/-- PSModularSymbolElement.Tq_eigenvalue with check = True and p, M given
(modsym.py:496-558): find the first generator where self is nonzero, let
aq be the scalar found by find_scalar there (find_scalar lives in the
distributions module, outside the given sources, so it is the parameter
findScalar), then verify that self|T_q - aq * self has valuation at least
M and raise the not a scalar multiple error otherwise.  qheckeSym is
self.hecke(q) as a whole symbol, valS its valuation at p. -/
def Tq_eigenvalue {D Sym K : Type} (isZeroD : D → Bool) (selfMap qheckeMap : ℕ → D)
    (gens : List ℕ) (findScalar : D → D → K)
    (qheckeSym selfSym : Sym) (smulS : K → Sym → Sym) (subS : Sym → Sym → Sym)
    (valS : Sym → WithTop ℤ) (M : ℤ) : Except TqErr K :=
  match firstNonzeroGen isZeroD selfMap qheckeMap gens with
  | .error e => .error e
  | .ok g =>
    let aq := findScalar (selfMap g) (qheckeMap g)
    if valS (subS qheckeSym (smulS aq selfSym)) < (M : WithTop ℤ) then .error .notScalar
    else .ok aq

/-- Helper: the self is zero error of the generator scan only arises when
every generator value of self is zero modulo the precision. -/
theorem firstNonzeroGen_selfZero {D : Type} (isZeroD : D → Bool)
    (selfMap qheckeMap : ℕ → D) :
    ∀ gens : List ℕ, firstNonzeroGen isZeroD selfMap qheckeMap gens = .error .selfZero →
      ∀ g ∈ gens, isZeroD (selfMap g) = true := by
  intro gens
  induction gens with
  | nil => intro _ g hg; cases hg
  | cons a rest ih =>
    intro h g hg
    rw [firstNonzeroGen] at h
    by_cases ha : isZeroD (selfMap a) = true
    · simp only [ha, if_true] at h
      by_cases hq : isZeroD (qheckeMap a) = true
      · simp only [hq] at h
        rcases List.mem_cons.mp hg with rfl | hmem
        · exact ha
        · exact ih (by simpa using h) g hmem
      · simp only [eq_false_of_ne_true hq] at h
        cases h
    · simp only [eq_false_of_ne_true ha, if_false] at h
      cases h

/-- C7: Tq_eigenvalue either returns a scalar c with
valuation (self|T_q - c * self) at least M; or, when no scalar at all
satisfies that bound, it returns one of the two errors and no scalar; and
the self is zero error only occurs when self vanishes modulo the precision
on every generator. -/
theorem Tq_eigenvalue_spec {D Sym K : Type} (isZeroD : D → Bool)
    (selfMap qheckeMap : ℕ → D) (gens : List ℕ) (findScalar : D → D → K)
    (qheckeSym selfSym : Sym) (smulS : K → Sym → Sym) (subS : Sym → Sym → Sym)
    (valS : Sym → WithTop ℤ) (M : ℤ) :
    (∀ c, Tq_eigenvalue isZeroD selfMap qheckeMap gens findScalar qheckeSym selfSym
        smulS subS valS M = .ok c →
      (M : WithTop ℤ) ≤ valS (subS qheckeSym (smulS c selfSym))) ∧
    ((∀ c, valS (subS qheckeSym (smulS c selfSym)) < (M : WithTop ℤ)) →
      Tq_eigenvalue isZeroD selfMap qheckeMap gens findScalar qheckeSym selfSym
          smulS subS valS M = .error .notScalar ∨
      Tq_eigenvalue isZeroD selfMap qheckeMap gens findScalar qheckeSym selfSym
          smulS subS valS M = .error .selfZero) ∧
    (Tq_eigenvalue isZeroD selfMap qheckeMap gens findScalar qheckeSym selfSym
        smulS subS valS M = .error .selfZero →
      ∀ g ∈ gens, isZeroD (selfMap g) = true) := by
  refine ⟨?_, ?_, ?_⟩
  · intro c hc
    unfold Tq_eigenvalue at hc
    rcases hscan : firstNonzeroGen isZeroD selfMap qheckeMap gens with e | g
    · rw [hscan] at hc; cases hc
    · rw [hscan] at hc
      simp only at hc
      by_cases hv : valS (subS qheckeSym
          (smulS (findScalar (selfMap g) (qheckeMap g)) selfSym)) < (M : WithTop ℤ)
      · simp only [hv, if_true] at hc; cases hc
      · simp only [hv, if_false] at hc
        cases hc
        exact not_lt.mp hv
  · intro hall
    rcases hscan : firstNonzeroGen isZeroD selfMap qheckeMap gens with e | g
    · cases e
      · left
        unfold Tq_eigenvalue
        rw [hscan]
      · right
        unfold Tq_eigenvalue
        rw [hscan]
    · left
      unfold Tq_eigenvalue
      rw [hscan]
      simp only [hall (findScalar (selfMap g) (qheckeMap g)), if_true]
  · intro h
    unfold Tq_eigenvalue at h
    rcases hscan : firstNonzeroGen isZeroD selfMap qheckeMap gens with e | g
    · rw [hscan] at h
      simp only [Except.error.injEq] at h
      exact firstNonzeroGen_selfZero isZeroD selfMap qheckeMap gens (by rw [hscan, h])
    · rw [hscan] at h
      simp only at h
      by_cases hv : valS (subS qheckeSym
          (smulS (findScalar (selfMap g) (qheckeMap g)) selfSym)) < (M : WithTop ℤ)
      · simp only [hv, if_true] at h; cases h
      · simp only [hv, if_false] at h; cases h

/-- C7 witness: a one generator instance over the integers where the
returned scalar 2 satisfies the valuation bound. -/
theorem Tq_eigenvalue_spec_witness :
    ((5 : ℤ) : WithTop ℤ) ≤
      (fun s : ℤ => if s = 0 then (⊤ : WithTop ℤ) else 0) ((4 : ℤ) - 2 * 2) :=
  (Tq_eigenvalue_spec (fun d : ℤ => decide (d = 0)) (fun _ => (1 : ℤ)) (fun _ => (2 : ℤ))
      [0] (fun _ _ => (2 : ℤ)) (4 : ℤ) (2 : ℤ) (fun c s => c * s) (fun a b => a - b)
      (fun s => if s = 0 then ⊤ else 0) 5).1 2 (by rfl)

/-- Upward search for a prime starting at m, with structural fuel. -/
def nextPrimeAux : ℕ → ℕ → ℕ
  | 0, m => m
  | fuel + 1, m => if Nat.Prime m then m else nextPrimeAux fuel (m + 1)

/-- Sage next_prime(n): the least prime strictly greater than n.  Fuel
n + 2 reaches 2n + 2, which contains a prime by the Bertrand postulate. -/
def nextPrime (n : ℕ) : ℕ := nextPrimeAux (n + 2) (n + 1)

/-- The fueled search returns the least prime at or above its start as long
as the fuel window contains any prime. -/
theorem nextPrimeAux_spec :
    ∀ fuel m, (∃ r, m ≤ r ∧ r < m + fuel ∧ Nat.Prime r) →
      Nat.Prime (nextPrimeAux fuel m) ∧ m ≤ nextPrimeAux fuel m ∧
        ∀ r, m ≤ r → r < nextPrimeAux fuel m → ¬ Nat.Prime r := by
  intro fuel
  induction fuel with
  | zero =>
    intro m ⟨r, h1, h2, _⟩
    omega
  | succ fuel ih =>
    intro m hex
    rw [nextPrimeAux]
    by_cases hm : Nat.Prime m
    · rw [if_pos hm]
      exact ⟨hm, le_refl m, fun r h1 h2 _ => absurd h1 (by omega)⟩
    · rw [if_neg hm]
      have hex1 : ∃ r, m + 1 ≤ r ∧ r < m + 1 + fuel ∧ Nat.Prime r := by
        obtain ⟨r, h1, h2, h3⟩ := hex
        refine ⟨r, ?_, by omega, h3⟩
        rcases Nat.eq_or_lt_of_le h1 with rfl | h
        · exact absurd h3 hm
        · omega
      obtain ⟨hp, hle, hleast⟩ := ih (m + 1) hex1
      refine ⟨hp, by omega, fun r h1 h2 hr => ?_⟩
      rcases Nat.eq_or_lt_of_le h1 with rfl | h
      · exact hm hr
      · exact hleast r (by omega) h2 hr

/-- next_prime is a prime strictly above its argument and there is no prime
in between. -/
theorem nextPrime_spec (n : ℕ) :
    Nat.Prime (nextPrime n) ∧ n < nextPrime n ∧
      ∀ r, n < r → r < nextPrime n → ¬ Nat.Prime r := by
  obtain ⟨p, hp, hlt, hle⟩ := Nat.exists_prime_lt_and_le_two_mul (n + 1) (by omega)
  have hex : ∃ r, n + 1 ≤ r ∧ r < n + 1 + (n + 2) ∧ Nat.Prime r :=
    ⟨p, by omega, by omega, hp⟩
  obtain ⟨h1, h2, h3⟩ := nextPrimeAux_spec (n + 2) (n + 1) hex
  unfold nextPrime
  exact ⟨h1, by omega, fun r hr1 hr2 => h3 r (by omega) hr2⟩

/-- The Eisenstein loss of an auxiliary prime r: the p-adic valuation of
aq - r^(k+1) - 1, with aq the T_r eigenvalue (modsym.py:1304).  The
eigenvalue map aqOf abstracts self.Tq_eigenvalue. -/
def eisOf (p k : ℕ) (aqOf : ℕ → ℤ) (r : ℕ) : WithTop ℕ :=
  vp p (aqOf r - (r : ℤ) ^ (k + 1) - 1)

/-- A prime r qualifies for _find_aq when it differs from p, does not
divide the level N, and its Eisenstein loss is below the precision M. -/
def aqQualifies (p N M k : ℕ) (aqOf : ℕ → ℤ) (r : ℕ) : Prop :=
  r ≠ p ∧ N % r ≠ 0 ∧ eisOf p k aqOf r < (M : WithTop ℕ)

instance (p N M k : ℕ) (aqOf : ℕ → ℤ) (r : ℕ) :
    Decidable (aqQualifies p N M k aqOf r) := by
  unfold aqQualifies; infer_instance

/-- Result of _find_aq: the returned triple, the Eisenstein refusal, or an
out of fuel marker that the fueled model never actually produces. -/
inductive FindAqResult
  | found : ℕ → ℤ → WithTop ℕ → FindAqResult
  | eisenstein : FindAqResult
  | outOfFuel : FindAqResult
deriving DecidableEq

/-- The search loop of PSModularSymbolElement_symk._find_aq
(modsym.py:1300-1314): while q equals p, or q divides N, or the Eisenstein
loss is at least M, and q is below 50, move to the next prime and recompute
aq and the loss (with the degenerate formula aq - 1 when the new prime is
p); on exit raise the Eisenstein refusal when q reached 50 and otherwise
return the triple (q, aq, eisenloss). -/
def findAqLoop (p N M k : ℕ) (aqOf : ℕ → ℤ) : ℕ → ℕ → ℤ → WithTop ℕ → FindAqResult
  | 0, _, _, _ => .outOfFuel
  | fuel + 1, q, aq, eis =>
    if ((q = p) ∨ (N % q = 0) ∨ ((M : WithTop ℕ) ≤ eis)) ∧ q < 50 then
      let q1 := nextPrime q
      let aq1 := aqOf q1
      let eis1 := if q1 ≠ p then vp p (aq1 - (q1 : ℤ) ^ (k + 1) - 1) else vp p (aq1 - 1)
      findAqLoop p N M k aqOf fuel q1 aq1 eis1
    else if 50 ≤ q then .eisenstein
    else .found q aq eis

/-- PSModularSymbolElement_symk._find_aq (modsym.py:1267-1314): start the
search at q = 2 with the standard loss formula.  Fifty units of fuel always
complete the search because every pass moves to a strictly larger prime and
passes only continue below 50. -/
def find_aq (p N M k : ℕ) (aqOf : ℕ → ℤ) : FindAqResult :=
  findAqLoop p N M k aqOf 50 2 (aqOf 2) (eisOf p k aqOf 2)

/-- Loop invariant for _find_aq: starting from a prime q whose smaller
primes all fail to qualify, with aq and eis matching the state the source
maintains, a found result carries the least qualifying prime below 50
together with its eigenvalue and loss, and an Eisenstein refusal means no
prime below 50 qualifies. -/
theorem findAqLoop_inv (p N M k : ℕ) (aqOf : ℕ → ℤ) :
    ∀ fuel q aq eis, Nat.Prime q → aq = aqOf q →
      (q = p ∨ eis = eisOf p k aqOf q) →
      (∀ r, Nat.Prime r → r < q → ¬ aqQualifies p N M k aqOf r) →
      ((∀ q0 aq0 eis0, findAqLoop p N M k aqOf fuel q aq eis = .found q0 aq0 eis0 →
          Nat.Prime q0 ∧ q0 < 50 ∧ aqQualifies p N M k aqOf q0 ∧ aq0 = aqOf q0 ∧
            eis0 = eisOf p k aqOf q0 ∧
            ∀ r, Nat.Prime r → r < q0 → ¬ aqQualifies p N M k aqOf r) ∧
       (findAqLoop p N M k aqOf fuel q aq eis = .eisenstein →
          ∀ r, Nat.Prime r → r < 50 → ¬ aqQualifies p N M k aqOf r)) := by
  intro fuel
  induction fuel with
  | zero =>
    intro q aq eis _ _ _ _
    constructor
    · intro q0 aq0 eis0 h
      rw [findAqLoop] at h
      cases h
    · intro h
      rw [findAqLoop] at h
      cases h
  | succ fuel ih =>
    intro q aq eis hq haq heis hmin
    rw [findAqLoop]
    by_cases hcond : ((q = p) ∨ (N % q = 0) ∨ ((M : WithTop ℕ) ≤ eis)) ∧ q < 50
    · rw [if_pos hcond]
      obtain ⟨hnp1, hnp2, hnp3⟩ := nextPrime_spec q
      have hqfail : ¬ aqQualifies p N M k aqOf q := by
        rcases hcond.1 with hqp | hrest
        · intro hqual; exact hqual.1 hqp
        · rcases hrest with hdvd | hbig
          · intro hqual; exact hqual.2.1 hdvd
          · rcases heis with hqp | heq
            · intro hqual; exact hqual.1 hqp
            · intro hqual
              rw [heq] at hbig
              exact absurd hqual.2.2 (not_lt.mpr hbig)
      have hmin1 : ∀ r, Nat.Prime r → r < nextPrime q → ¬ aqQualifies p N M k aqOf r := by
        intro r hr hrlt
        rcases lt_trichotomy r q with h | h | h
        · exact hmin r hr h
        · subst h; exact hqfail
        · exact absurd hr (hnp3 r h hrlt)
      have heis1 : nextPrime q = p ∨
          (if nextPrime q ≠ p then vp p (aqOf (nextPrime q) - (nextPrime q : ℤ) ^ (k + 1) - 1)
           else vp p (aqOf (nextPrime q) - 1)) = eisOf p k aqOf (nextPrime q) := by
        by_cases hqp : nextPrime q = p
        · exact Or.inl hqp
        · right
          rw [if_pos hqp]
          rfl
      exact ih (nextPrime q) (aqOf (nextPrime q)) _ hnp1 rfl heis1 hmin1
    · rw [if_neg hcond]
      by_cases h50 : 50 ≤ q
      · rw [if_pos h50]
        constructor
        · intro q0 aq0 eis0 h
          cases h
        · intro _ r hr hr50
          exact hmin r hr (by omega)
      · rw [if_neg h50]
        constructor
        · intro q0 aq0 eis0 h
          injection h with h1 h2 h3
          subst h1; subst h2; subst h3
          have hnb : ¬ ((q = p) ∨ (N % q = 0) ∨ ((M : WithTop ℕ) ≤ eis)) := by
            intro hb; exact hcond ⟨hb, by omega⟩
          push_neg at hnb
          obtain ⟨hq1, hq2, hq3⟩ := hnb
          have heq : eis = eisOf p k aqOf q := by
            rcases heis with hqp | heq
            · exact absurd hqp hq1
            · exact heq
          refine ⟨hq, by omega, ⟨hq1, hq2, ?_⟩, haq, heq, hmin⟩
          rw [← heq]
          exact hq3
        · intro h
          cases h
  -- end of induction

/-- The fueled loop never runs out of fuel when the fuel is at least
51 - q: each pass needs q below 50 and moves to a strictly larger value. -/
theorem findAqLoop_hasFuel (p N M k : ℕ) (aqOf : ℕ → ℤ) :
    ∀ fuel q aq eis, 50 - q + 1 ≤ fuel →
      findAqLoop p N M k aqOf fuel q aq eis ≠ .outOfFuel := by
  intro fuel
  induction fuel with
  | zero => intro q aq eis h; omega
  | succ fuel ih =>
    intro q aq eis h
    rw [findAqLoop]
    by_cases hcond : ((q = p) ∨ (N % q = 0) ∨ ((M : WithTop ℕ) ≤ eis)) ∧ q < 50
    · rw [if_pos hcond]
      apply ih
      have := (nextPrime_spec q).2.1
      omega
    · rw [if_neg hcond]
      by_cases h50 : 50 ≤ q
      · rw [if_pos h50]; intro h; cases h
      · rw [if_neg h50]; intro h; cases h

/-- C5: _find_aq examines increasing primes from 2 on; on success it
returns the least prime q below 50 that differs from p, does not divide
the level and has Eisenstein loss below M, together with its eigenvalue
aq and the loss v_p(aq - q^(k+1) - 1); it refuses with the Eisenstein
error exactly on runs where no prime below the bound 50 qualifies; and
the fueled model always finishes. -/
theorem find_aq_spec (p N M k : ℕ) (aqOf : ℕ → ℤ) :
    (∀ q0 aq0 eis0, find_aq p N M k aqOf = .found q0 aq0 eis0 →
        Nat.Prime q0 ∧ q0 < 50 ∧ q0 ≠ p ∧ N % q0 ≠ 0 ∧
          eis0 < (M : WithTop ℕ) ∧ aq0 = aqOf q0 ∧ eis0 = eisOf p k aqOf q0 ∧
          ∀ r, Nat.Prime r → r < q0 → ¬ aqQualifies p N M k aqOf r) ∧
    (find_aq p N M k aqOf = .eisenstein →
        ∀ r, Nat.Prime r → r < 50 → ¬ aqQualifies p N M k aqOf r) ∧
    find_aq p N M k aqOf ≠ .outOfFuel := by
  have hinv := findAqLoop_inv p N M k aqOf 50 2 (aqOf 2) (eisOf p k aqOf 2)
    Nat.prime_two rfl (Or.inr rfl)
    (fun r hr hrlt => absurd hr.two_le (by omega))
  refine ⟨?_, hinv.2, findAqLoop_hasFuel p N M k aqOf 50 2 _ _ (by omega)⟩
  intro q0 aq0 eis0 h
  obtain ⟨h1, h2, h3, h4, h5, h6⟩ := hinv.1 q0 aq0 eis0 h
  exact ⟨h1, h2, h3.1, h3.2.1, by rw [h5]; exact h3.2.2, h4, h5, h6⟩

/-- C5 witness: with p = 5, level 11, M = 10, weight 0 and all eigenvalues
0, the prime 2 qualifies at once and the theorem applies to the returned
triple. -/
theorem find_aq_spec_witness : Nat.Prime 2 ∧ (2 : ℕ) < 50 ∧ (2 : ℕ) ≠ 5 :=
  have h := (find_aq_spec 5 11 10 0 (fun _ => 0)).1 2 0
    (eisOf 5 0 (fun _ => 0) 2) (by rfl)
  ⟨h.1, h.2.1, h.2.2.1⟩

end OMS
